import Mathlib

/-!
Verification development for the Decimal128 core of
`src/cpp/src/arrow/util/decimal.cc`.

The C++ code is embedded shallowly:

* `Decimal128` is a pair of a signed 64-bit half (`highBits : Int`, kept in
  the range of `int64_t`) and an unsigned 64-bit half (`lowBits : Nat`,
  kept below `2 ^ 64`).  All machine arithmetic is written out with
  explicit wrapping (`% 2 ^ 64`, `% 2 ^ 32`).
* Fallible operations return `Except`.  The two places where the C++
  throws or runs into undefined behaviour are surfaced as distinct error
  values: `thrown` models a C++ exception escaping (`std::stol` on an
  empty exponent string), and `ub` models a call that violates the
  documented contract of `ShiftArrayLeft` / `ShiftArrayRight`
  (`0 <= bits < 32`); a shift of a `uint32_t` by 32 bits is undefined
  behaviour in C++.
* `DCHECK` assertions are compiled out in release builds and are modelled
  as no-ops.
-/

set_option maxRecDepth 10000

namespace ArrowDecimal

/-- Interpret a 64-bit pattern (a natural number below `2 ^ 64`) as a
signed two-complement value, the way `int64_t` reads the bits. -/
def toSigned64 (n : Nat) : Int :=
  if n < 2 ^ 63 then (n : Int) else (n : Int) - 2 ^ 64

/-- Bit pattern of a signed 64-bit value, as used when C++ casts
`int64_t` to `uint64_t`. -/
def toUnsigned64 (i : Int) : Nat :=
  (i % 2 ^ 64).toNat

/-- Wrapping signed 64-bit arithmetic: reduce an unbounded integer to the
value an `int64_t` would hold. -/
def wrapS64 (i : Int) : Int :=
  toSigned64 (toUnsigned64 i)

/-- Wrapping signed 32-bit arithmetic, for C++ `int` / `int32_t`
computations. -/
def wrapS32 (i : Int) : Int :=
  if (i % 2 ^ 32).toNat < 2 ^ 31 then ((i % 2 ^ 32).toNat : Int)
  else ((i % 2 ^ 32).toNat : Int) - 2 ^ 32

/-- The value type of `decimal.cc`: `high_bits_ : int64_t` and
`low_bits_ : uint64_t`. -/
structure Decimal128 where
  highBits : Int
  lowBits : Nat
  deriving Repr, DecidableEq

namespace Decimal128

/-- Well-formedness: the two fields hold machine-representable values. -/
def Wf (d : Decimal128) : Prop :=
  -2 ^ 63 ≤ d.highBits ∧ d.highBits < 2 ^ 63 ∧ d.lowBits < 2 ^ 64

instance (d : Decimal128) : Decidable (Wf d) := by
  unfold Wf; infer_instance

/-- The signed 128-bit value represented: `high * 2^64 + low`. -/
def toVal (d : Decimal128) : Int :=
  d.highBits * 2 ^ 64 + (d.lowBits : Int)

/-- The 128-bit pattern represented, as a natural number below `2 ^ 128`. -/
def natVal (d : Decimal128) : Nat :=
  toUnsigned64 d.highBits * 2 ^ 64 + d.lowBits

/-- Build the `Decimal128` whose 128-bit two-complement pattern encodes
the integer `v` (reduction modulo `2 ^ 128`). -/
def ofInt (v : Int) : Decimal128 :=
  ⟨toSigned64 ((v % 2 ^ 128).toNat / 2 ^ 64), (v % 2 ^ 128).toNat % 2 ^ 64⟩

/-- Modelled from the spec: the one-argument constructor
`Decimal128(int64_t value)` sign-extends `value` into the high half and
bit-casts it into the low half (the constructor lives in the header,
outside `src/`). -/
def ofInt64 (v : Int) : Decimal128 :=
  ⟨if v < 0 then -1 else 0, toUnsigned64 v⟩

/-- `Decimal128::Negate`: two-complement negation, written on the two
halves exactly as in the source. -/
def Negate (d : Decimal128) : Decimal128 :=
  let low := (2 ^ 64 - 1 - d.lowBits % 2 ^ 64 + 1) % 2 ^ 64
  let high := wrapS64 (-1 - d.highBits)
  if low = 0 then ⟨wrapS64 (high + 1), low⟩ else ⟨high, low⟩

/-- `operator<` on `Decimal128`: compare high halves as signed, then low
halves as unsigned. -/
def ltDec (a b : Decimal128) : Prop :=
  a.highBits < b.highBits ∨ (a.highBits = b.highBits ∧ a.lowBits < b.lowBits)

instance (a b : Decimal128) : Decidable (ltDec a b) := by
  unfold ltDec; infer_instance

/-- `Decimal128::Abs`: negate when the value is below zero. -/
def Abs (d : Decimal128) : Decimal128 :=
  if ltDec d ⟨0, 0⟩ then Negate d else d

/-- `operator+=`: 64-bit add of the low halves with carry detection by
unsigned comparison, exactly as in the source. -/
def addDec (a b : Decimal128) : Decimal128 :=
  let sum := (a.lowBits + b.lowBits) % 2 ^ 64
  let high := wrapS64 (a.highBits + b.highBits)
  if sum < a.lowBits then ⟨wrapS64 (high + 1), sum⟩ else ⟨high, sum⟩

/-- `operator*=`: 32-bit chunked schoolbook multiply of the low 128 bits.
The transcription keeps the source oddity that the carry bit is added
twice: `high_bits_` is first set to `kCarryBit` when `sum < product` and
then `kCarryBit` is added once more under the same test. -/
def mulDec (a b : Decimal128) : Decimal128 :=
  let L0 := toUnsigned64 a.highBits / 2 ^ 32
  let L1 := toUnsigned64 a.highBits % 2 ^ 32
  let L2 := a.lowBits / 2 ^ 32
  let L3 := a.lowBits % 2 ^ 32
  let R0 := toUnsigned64 b.highBits / 2 ^ 32
  let R1 := toUnsigned64 b.highBits % 2 ^ 32
  let R2 := b.lowBits / 2 ^ 32
  let R3 := b.lowBits % 2 ^ 32
  let product1 := L3 * R3 % 2 ^ 64
  let low1 := product1 % 2 ^ 32
  let sum1 := product1 / 2 ^ 32
  let product2 := L2 * R3 % 2 ^ 64
  let sum2 := (sum1 + product2) % 2 ^ 64
  let product3 := L3 * R2 % 2 ^ 64
  let sum3 := (sum2 + product3) % 2 ^ 64
  let low2 := (low1 + sum3 * 2 ^ 32) % 2 ^ 64
  let high1 : Int := if sum3 < product3 then (2 ^ 32 : Int) else 0
  let high2 : Int := if sum3 < product3 then wrapS64 (high1 + 2 ^ 32) else high1
  let high3 := wrapS64 (high2 + (sum3 / 2 ^ 32 : Nat))
  let high4 := wrapS64 (high3 + ((L1 * R3 + L2 * R2 + L3 * R1) % 2 ^ 64 : Nat))
  let high5 := wrapS64 (high4 + ((L0 * R3 + L1 * R2 + L2 * R1 + L3 * R0) % 2 ^ 64 * 2 ^ 32 % 2 ^ 64 : Nat))
  ⟨high5, low2⟩

end Decimal128

/-- Error outcomes of the embedded operations.  `invalid` models a
returned `Status::Invalid`; `thrown` models a C++ exception escaping the
function; `ub` models an operation whose C++ behaviour is undefined
(a 32-bit shift count of 32 or more, which also violates the documented
contract `0 <= bits < 32` of the shift helpers). -/
inductive ArrowErr where
  | invalid (msg : String)
  | thrown (msg : String)
  | ub (msg : String)
  deriving Repr, DecidableEq

end ArrowDecimal

deriving instance DecidableEq for Except

namespace ArrowDecimal

namespace Decimal128

/-- `FillInArray`: expand a value into 32-bit limbs (most significant
first), absolute value taken, recording whether the value was negative.
The source comment promises that leading zero limbs are removed, but the
test `low >= numeric_limits of uint32 max` keeps a leading zero limb when
the low half is exactly `2 ^ 32 - 1`. -/
def FillInArray (value : Decimal128) : List Nat × Bool :=
  let highbits := value.highBits
  let lowbits := value.lowBits
  let state :=
    if highbits < 0 then
      let low := (2 ^ 64 - 1 - lowbits % 2 ^ 64 + 1) % 2 ^ 64
      let high0 := toUnsigned64 (-1 - highbits)
      (low, if low = 0 then (high0 + 1) % 2 ^ 64 else high0, true)
    else
      (lowbits, toUnsigned64 highbits, false)
  let low := state.1
  let high := state.2.1
  let wasNegative := state.2.2
  if high ≠ 0 then
    if high > 2 ^ 32 - 1 then
      ([high / 2 ^ 32, high % 2 ^ 32, low / 2 ^ 32, low % 2 ^ 32], wasNegative)
    else
      ([high % 2 ^ 32, low / 2 ^ 32, low % 2 ^ 32], wasNegative)
  else if low ≥ 2 ^ 32 - 1 then
    ([low / 2 ^ 32, low % 2 ^ 32], wasNegative)
  else if low = 0 then
    ([], wasNegative)
  else
    ([low % 2 ^ 32], wasNegative)

/-- Modelled from the spec: `BitUtil::CountLeadingZeros` on a 32-bit
value (declared in `bit-util.h`, outside `src/`); the spec uses it as
`clz(divisor[0])` for the normalization shift.  The bit length is
computed by a bounded fold so that the definition evaluates by kernel
reduction. -/
def CountLeadingZeros (n : Nat) : Nat :=
  32 - (List.range 32).foldl (fun acc k => if 2 ^ k ≤ n then k + 1 else acc) 0

/-- `ShiftArrayLeft`: shift the limb array left by `bits` positions.
The documented contract is `0 <= bits < 32`; a count of 32 or more makes
the C++ shift of a 32-bit operand undefined and is returned as `ub`. -/
def ShiftArrayLeft (arr : List Nat) (bits : Nat) : Except ArrowErr (List Nat) :=
  if arr.length = 0 ∨ bits = 0 then .ok arr
  else if bits ≥ 32 then .error (.ub "ShiftArrayLeft called with bits not below 32")
  else
    .ok ((List.range arr.length).map fun i =>
      if i < arr.length - 1 then
        ((arr.getD i 0 <<< bits) ||| (arr.getD (i + 1) 0 >>> (32 - bits))) % 2 ^ 32
      else
        (arr.getD i 0 <<< bits) % 2 ^ 32)

/-- `ShiftArrayRight`: shift the limb array right by `bits` positions,
with the same `0 <= bits < 32` contract as `ShiftArrayLeft`. -/
def ShiftArrayRight (arr : List Nat) (bits : Nat) : Except ArrowErr (List Nat) :=
  if arr.length = 0 ∨ bits = 0 then .ok arr
  else if bits ≥ 32 then .error (.ub "ShiftArrayRight called with bits not below 32")
  else
    .ok ((List.range arr.length).map fun i =>
      if i = 0 then
        arr.getD 0 0 >>> bits
      else
        ((arr.getD i 0 >>> bits) ||| (arr.getD (i - 1) 0 <<< (32 - bits))) % 2 ^ 32)

/-- `FixDivisionSigns`: negate the quotient when the operand signs
differ, negate the remainder when the dividend was negative. -/
def FixDivisionSigns (result remainder : Decimal128)
    (dividendWasNegative divisorWasNegative : Bool) : Decimal128 × Decimal128 :=
  (if dividendWasNegative ≠ divisorWasNegative then Negate result else result,
   if dividendWasNegative then Negate remainder else remainder)

/-- `BuildFromArray`: reassemble a `Decimal128` from `length` limbs.
Lengths 0 to 5 are supported; a length of 5 needs a zero leading limb. -/
def BuildFromArray (arr : List Nat) (length : Nat) : Except ArrowErr Decimal128 :=
  match length with
  | 0 => .ok (ofInt64 0)
  | 1 => .ok (ofInt64 (arr.getD 0 0 : Nat))
  | 2 => .ok ⟨0, (arr.getD 0 0 * 2 ^ 32 + arr.getD 1 0) % 2 ^ 64⟩
  | 3 => .ok ⟨(arr.getD 0 0 : Nat), (arr.getD 1 0 * 2 ^ 32 + arr.getD 2 0) % 2 ^ 64⟩
  | 4 => .ok ⟨wrapS64 (arr.getD 0 0 * 2 ^ 32 + arr.getD 1 0),
              (arr.getD 2 0 * 2 ^ 32 + arr.getD 3 0) % 2 ^ 64⟩
  | 5 =>
    if arr.getD 0 0 ≠ 0 then
      .error (.invalid "Cannot build Decimal128 with 5 ints.")
    else
      .ok ⟨wrapS64 (arr.getD 1 0 * 2 ^ 32 + arr.getD 2 0),
           (arr.getD 3 0 * 2 ^ 32 + arr.getD 4 0) % 2 ^ 64⟩
  | _ => .error (.invalid "Unsupported length for building Decimal128")

/-- `SingleDivide`: division by a divisor that fits one 32-bit limb,
carrying a 64-bit remainder limb by limb. -/
def SingleDivide (dividend : List Nat) (dividendLength : Nat) (divisor : Nat)
    (dividendWasNegative divisorWasNegative : Bool) :
    Except ArrowErr (Decimal128 × Decimal128) :=
  let loop := (List.range dividendLength).foldl
    (fun (st : Nat × List Nat) j =>
      let r1 := st.1 * 2 ^ 32 % 2 ^ 64
      let r2 := (r1 + dividend.getD j 0) % 2 ^ 64
      (r2 % divisor, st.2.set j (r2 / divisor % 2 ^ 32)))
    (0, List.replicate 5 0)
  match BuildFromArray loop.2 dividendLength with
  | .error e => .error e
  | .ok result =>
    let remainder := ofInt64 (loop.1 : Nat)
    .ok (FixDivisionSigns result remainder dividendWasNegative divisorWasNegative)

/-- Correction loop for the quotient digit guess: decrement the guess
while the two-limb test shows it is too large, stopping when the running
`rhat` wraps past 32 bits.  The loop condition is false once the guess
reaches zero (the left side becomes zero), so the C++ decrement of the
unsigned guess never wraps and natural subtraction is faithful. -/
def correctGuess (v0 v1 u2 : Nat) : Nat → Nat → Nat
  | 0, _ => 0
  | guess + 1, rhat =>
    if v1 * (guess + 1) > rhat * 2 ^ 32 + u2 then
      let rhat2 := (rhat + v0) % 2 ^ 32
      if rhat2 < v0 then guess else correctGuess v0 v1 u2 guess rhat2
    else guess + 1

/-- One iteration of the long-division digit loop of
`Decimal128::Divide`: guess the digit, correct it, subtract
`guess * divisor` from the dividend slice, and add the divisor back once
when the subtraction underflows.  State is the pair of the mutable
dividend array and the result array. -/
def divideLoopStep (divisorArr : List Nat) (divisorLength : Nat)
    (st : List Nat × List Nat) (j : Nat) : List Nat × List Nat :=
  let dividendArr := st.1
  let resultArr := st.2
  let v0 := divisorArr.getD 0 0
  let highDividend := dividendArr.getD j 0 * 2 ^ 32 + dividendArr.getD (j + 1) 0
  let guess0 :=
    if dividendArr.getD j 0 ≠ v0 then highDividend / v0 % 2 ^ 32 else 2 ^ 32 - 1
  let rhat0 := (highDividend + 2 ^ 64 - guess0 * v0 % 2 ^ 64) % 2 ^ 32
  let guess1 := correctGuess v0 (divisorArr.getD 1 0) (dividendArr.getD (j + 2) 0) guess0 rhat0
  let sub := ((List.range divisorLength).reverse).foldl
    (fun (st2 : Nat × List Nat) i =>
      let mult := (st2.1 + guess1 * divisorArr.getD i 0) % 2 ^ 64
      let prev := st2.2.getD (j + i + 1) 0
      let newv := (prev + 2 ^ 32 - mult % 2 ^ 32) % 2 ^ 32
      let mult2 := mult / 2 ^ 32
      (if newv > prev then mult2 + 1 else mult2, st2.2.set (j + i + 1) newv))
    (0, dividendArr)
  let prevTop := sub.2.getD j 0
  let newTop := (prevTop + 2 ^ 32 - sub.1 % 2 ^ 32) % 2 ^ 32
  let dividendArr2 := sub.2.set j newTop
  if newTop > prevTop then
    let addBack := ((List.range divisorLength).reverse).foldl
      (fun (st2 : Nat × List Nat) i =>
        let sum := (divisorArr.getD i 0 + st2.2.getD (j + i + 1) 0 + st2.1) % 2 ^ 64
        (sum / 2 ^ 32 % 2 ^ 32, st2.2.set (j + i + 1) (sum % 2 ^ 32)))
      (0, dividendArr2)
    let dividendArr3 := addBack.2.set j ((dividendArr2.getD j 0 + addBack.1) % 2 ^ 32)
    (dividendArr3, resultArr.set j (guess1 - 1))
  else
    (dividendArr2, resultArr.set j guess1)

/-- `Decimal128::Divide` with the two output parameters threaded
explicitly: `result0` and `remainder0` are the contents of the output
locations at the call, and the returned pair is their contents when the
function returns.  The first component is the returned `Status`. -/
def Divide (this divisor result0 remainder0 : Decimal128) :
    Except ArrowErr Unit × Decimal128 × Decimal128 :=
  let fill := FillInArray this
  let dividendWasNegative := fill.2
  let dividendArray := 0 :: fill.1
  let dividendLength := fill.1.length + 1
  let fillD := FillInArray divisor
  let divisorArray := fillD.1
  let divisorWasNegative := fillD.2
  let divisorLength := divisorArray.length
  if dividendLength ≤ divisorLength then
    (.ok (), ofInt64 0, this)
  else if divisorLength = 0 then
    (.error (.invalid "Division by 0 in Decimal128"), result0, remainder0)
  else if divisorLength = 1 then
    match SingleDivide dividendArray dividendLength (divisorArray.getD 0 0)
        dividendWasNegative divisorWasNegative with
    | .error e => (.error e, result0, remainder0)
    | .ok (res, rem) => (.ok (), res, rem)
  else
    let resultLength := dividendLength - divisorLength
    let normalizeBits := CountLeadingZeros (divisorArray.getD 0 0)
    match ShiftArrayLeft divisorArray normalizeBits with
    | .error e => (.error e, result0, remainder0)
    | .ok divisorArr2 =>
      match ShiftArrayLeft dividendArray normalizeBits with
      | .error e => (.error e, result0, remainder0)
      | .ok dividendArr2 =>
        let loop := (List.range resultLength).foldl
          (divideLoopStep divisorArr2 divisorLength) (dividendArr2, List.replicate 4 0)
        match ShiftArrayRight loop.1 normalizeBits with
        | .error e => (.error e, result0, remainder0)
        | .ok dividendArr3 =>
          match BuildFromArray loop.2 resultLength with
          | .error e => (.error e, result0, remainder0)
          | .ok result1 =>
            match BuildFromArray dividendArr3 dividendLength with
            | .error e => (.error e, result1, remainder0)
            | .ok remainder1 =>
              let fixed := FixDivisionSigns result1 remainder1
                dividendWasNegative divisorWasNegative
              (.ok (), fixed.1, fixed.2)

/-- Division with freshly default-constructed output values, the way the
callers in the source invoke `Divide` on local variables. -/
def divide (a b : Decimal128) : Except ArrowErr (Decimal128 × Decimal128) :=
  match Divide a b ⟨0, 0⟩ ⟨0, 0⟩ with
  | (.ok _, q, r) => .ok (q, r)
  | (.error e, _, _) => .error e

/-- The table `ScaleMultipliers`: the powers of ten from `10 ^ 0` to
`10 ^ 38` as `Decimal128` constants.  The source writes the entries up to
`10 ^ 18` with the `int64_t` constructor and the larger ones with the
decimal-string constructor; each entry is the exact 128-bit value of
`10 ^ k`. -/
def ScaleMultipliers (k : Nat) : Decimal128 :=
  ofInt (10 ^ k)

/-- `RescaleWouldCauseDataLoss`: multiply or divide by the power of ten
and report loss.  For a negative delta the remainder of the division must
be zero; for a positive delta the check is that the (wrapping) product is
not below the input under signed comparison.  The returned pair is the
flag and the contents of the output location `out` (initial contents
`out0`; the local `remainder` starts default-constructed at zero and the
`Status` of the division is only `DCHECK`-ed). -/
def RescaleWouldCauseDataLoss (value : Decimal128) (deltaScale : Int)
    (absDeltaScale : Nat) (out0 : Decimal128) : Bool × Decimal128 :=
  let multiplier := ScaleMultipliers absDeltaScale
  if deltaScale < 0 then
    let dres := Divide value multiplier out0 ⟨0, 0⟩
    (decide (dres.2.2 ≠ ⟨0, 0⟩), dres.2.1)
  else
    let result := mulDec value multiplier
    (decide (ltDec result value), result)

/-- `Decimal128::Rescale`: change of scale with loss detection.  The
`DCHECK` preconditions (distinct scales, `1 <= |delta| <= 38`) are
release no-ops; scale arithmetic is 32-bit. -/
def Rescale (this : Decimal128) (originalScale newScale : Int) :
    Except ArrowErr Decimal128 :=
  let deltaScale := wrapS32 (newScale - originalScale)
  let absDeltaScale := deltaScale.natAbs
  let r := RescaleWouldCauseDataLoss this deltaScale absDeltaScale ⟨0, 0⟩
  if r.1 then
    .error (.invalid "Rescaling decimal value would cause data loss")
  else
    .ok r.2

/-- The constant `kTenTo36`, written with the same two halves as the
source. -/
def kTenTo36 : Decimal128 := ⟨0xC097CE7BC90715, 0xB34B9F1000000000⟩

/-- The constant `kTenTo18`, written with the same `int64_t` literal as
the source. -/
def kTenTo18 : Decimal128 := ofInt64 0xDE0B6B3A7640000

/-- The conversion `operator int64_t`: the `DCHECK` on the high bits is a
release no-op and the cast returns the low half reinterpreted as signed. -/
def castInt64 (d : Decimal128) : Int :=
  toSigned64 (d.lowBits % 2 ^ 64)

/-- Effect of `std::setw(18)` with `std::setfill` of the zero character on
the next stream insertion: right-adjust to width 18, filling on the left
(also in front of a minus sign). -/
def padLeft18 (s : String) : String :=
  if s.length ≥ 18 then s else String.mk (List.replicate (18 - s.length) '0') ++ s

/-- `Decimal128::ToIntegerString`: print the value via two divisions, by
`10 ^ 36` and then by `10 ^ 18`, padding the later chunks to 18 digits.
The output parameters of the divisions are threaded exactly as the local
variables `top`, `remainder` and `tail` are reused in the source. -/
def ToIntegerString (d : Decimal128) : String :=
  let r1 := Divide d kTenTo36 ⟨0, 0⟩ ⟨0, 0⟩
  let top1 := r1.2.1
  let remainder1 := r1.2.2
  let needFill1 : Bool := decide (top1 ≠ ⟨0, 0⟩)
  let buf1 := if needFill1 then Int.repr (castInt64 top1) else ""
  let remainder2 := if needFill1 then Abs remainder1 else remainder1
  let r2 := Divide remainder2 kTenTo18 top1 ⟨0, 0⟩
  let top2 := r2.2.1
  let tail1 := r2.2.2
  let cond : Bool := needFill1 || decide (top2 ≠ ⟨0, 0⟩)
  let tail2 := if cond && !needFill1 then Abs tail1 else tail1
  let buf2 :=
    if cond then
      buf1 ++ (if needFill1 then padLeft18 (Int.repr (castInt64 top2))
               else Int.repr (castInt64 top2))
    else buf1
  let tailStr := Int.repr (castInt64 tail2)
  buf2 ++ (if cond then padLeft18 tailStr else tailStr)

/-- Decimal representation of an integer with `std::showpos`: an explicit
plus sign on values that are not negative. -/
def showposRepr (i : Int) : String :=
  if 0 ≤ i then "+" ++ Int.repr i else Int.repr i

/-- `ToStringNegativeScale`: scientific form, one leading integer digit
(after the minus sign when negative), a decimal point, the remaining
digits, and the explicitly signed exponent. -/
def ToStringNegativeScale (str : String) (adjustedExponent : Int)
    (isNegative : Bool) : String :=
  let offset := if isNegative then 2 else 1
  String.mk (str.toList.take offset) ++ "." ++ String.mk (str.toList.drop offset)
    ++ "E" ++ showposRepr adjustedExponent

/-- `Decimal128::ToString` with a scale: plain notation, or scientific
notation when the scale is negative or the adjusted exponent drops below
minus six. -/
def ToString (d : Decimal128) (scale : Int) : String :=
  let str := ToIntegerString d
  if scale = 0 then str
  else
    let isNegative : Bool := decide (ltDec d ⟨0, 0⟩)
    let len : Int := wrapS32 (str.length)
    let negOff : Int := if isNegative then 1 else 0
    let adjustedExponent := wrapS32 (-scale + (len - 1 - negOff))
    if scale < 0 ∨ adjustedExponent < -6 then
      ToStringNegativeScale str adjustedExponent isNegative
    else if isNegative then
      if len - 1 > scale then
        let n := (len - scale).toNat
        String.mk (str.toList.take n) ++ "." ++ String.mk ((str.toList.drop n).take scale.toNat)
      else if len - 1 = scale then
        "-0." ++ String.mk (str.toList.drop 1)
      else
        "-0." ++ String.mk (List.replicate (scale - len + 1).toNat (Char.ofNat 48))
          ++ String.mk (str.toList.drop 1)
    else
      if len > scale then
        let n := (len - scale).toNat
        String.mk (str.toList.take n) ++ "." ++ String.mk ((str.toList.drop n).take scale.toNat)
      else if len = scale then
        "0." ++ str
      else
        "0." ++ String.mk (List.replicate (scale - len).toNat (Char.ofNat 48)) ++ str

/-- The table `kPowersOfTen`: `10 ^ 0` to `10 ^ 18` as `int64_t`
literals, indexed by the chunk length used in `StringToInteger`. -/
def kPowersOfTen : List Int :=
  [1, 10, 100, 1000, 10000, 100000, 1000000, 10000000, 100000000,
   1000000000, 10000000000, 100000000000, 1000000000000, 10000000000000,
   100000000000000, 1000000000000000, 10000000000000000,
   100000000000000000, 1000000000000000000]

/-- `kInt64DecimalDigits`: the number of decimal digits an `int64_t` can
always hold (`std::numeric_limits` `digits10`). -/
def kInt64DecimalDigits : Nat := 18

/-- The helper `isdigit` of the source (a wrapper around `std::isdigit`):
true exactly on the ASCII decimal digits. -/
def isdigit (c : Char) : Bool :=
  decide (48 ≤ c.toNat ∧ c.toNat ≤ 57)

/-- Numeric value of a list of decimal digit characters, most significant
first. -/
def digitsToNat (cs : List Char) : Nat :=
  cs.foldl (fun acc c => acc * 10 + (c.toNat - 48)) 0

/-- Modelled from the spec: `std::stoll` applied to a chunk of at most 18
decimal digit characters (such a chunk always fits an `int64_t`). -/
def stoll (cs : List Char) : Int :=
  (digitsToNat cs : Int)

/-- Loop of `StringToInteger`, consuming chunks of up to 18 digits and
accumulating `out = out * 10 ^ group + chunk` with the `Decimal128`
operators.  The fuel argument is the length of the string, which bounds
the number of iterations; each iteration consumes at least one
character. -/
def StringToIntegerLoop : Nat → List Char → Decimal128 → Decimal128
  | 0, _, out => out
  | _ + 1, [], out => out
  | fuel + 1, str@(_ :: _), out =>
    let group := min kInt64DecimalDigits str.length
    let chunk := stoll (str.take group)
    let multiple := kPowersOfTen.getD group 0
    let out2 := addDec (mulDec out (ofInt64 multiple)) (ofInt64 chunk)
    StringToIntegerLoop fuel (str.drop group) out2

/-- `StringToInteger`: convert a digit string to a `Decimal128` by 18
digit chunks (the `DCHECK`s on the arguments are release no-ops). -/
def StringToInteger (str : List Char) (out : Decimal128) : Decimal128 :=
  StringToIntegerLoop str.length str out

/-- Modelled from the spec: `std::stol` on the exponent substring — an
optional sign, then at least one decimal digit (otherwise it throws
`std::invalid_argument`); the value must fit a 64-bit `long` (otherwise
it throws `std::out_of_range`). -/
def stol (cs : List Char) : Except ArrowErr Int :=
  let sgn : Int := if cs.headD (Char.ofNat 0) = Char.ofNat 45 then -1 else 1
  let body := if cs.headD (Char.ofNat 0) = Char.ofNat 43 ∨
                 cs.headD (Char.ofNat 0) = Char.ofNat 45 then cs.drop 1 else cs
  let ds := body.takeWhile isdigit
  if ds.isEmpty then .error (.thrown "invalid_argument")
  else
    let v := sgn * (digitsToNat ds : Int)
    if v > 2 ^ 63 - 1 ∨ v < -(2 ^ 63) then .error (.thrown "out_of_range")
    else .ok v

/-- Continuation of `FromString` after the decimal point handling:
`fracStart` is the iterator position where the fractional digits begin
(the suffix right after the point, or the empty suffix when no point was
seen). -/
def FromStringTail (isNegative : Bool) (wholePart fracStart : List Char) :
    Except ArrowErr (Decimal128 × Int × Int) :=
  let fracPart := fracStart.takeWhile isdigit
  let afterFrac := fracStart.dropWhile isdigit
  if afterFrac ≠ [] ∧ afterFrac.headD (Char.ofNat 0) ≠ 'E' ∧
      afterFrac.headD (Char.ofNat 0) ≠ 'e' then
    .error (.invalid "Found non base ten digit character before the end of the string")
  else
    let precision := wrapS32 (wholePart.length + fracPart.length)
    let value :=
      let out1 := StringToInteger (wholePart ++ fracPart) ⟨0, 0⟩
      if isNegative then Negate out1 else out1
    if afterFrac = [] then
      .ok (value, precision, wrapS32 fracPart.length)
    else
      let rest := afterFrac.drop 1
      let expChar := rest.headD (Char.ofNat 0)
      let startsWithPlusOrMinus := expChar = '+' ∨ expChar = '-'
      let digitStart := rest
      let afterPM := if startsWithPlusOrMinus then rest.drop 1 else rest
      let afterDigits := afterPM.dropWhile isdigit
      if afterDigits ≠ [] then
        .error (.invalid "Found non decimal digit exponent value")
      else
        match stol digitStart with
        | .error e => .error e
        | .ok v =>
          let adjustedExponent := wrapS32 v
          let len := wrapS32 (wholePart.length + fracPart.length)
          .ok (value, precision, wrapS32 (-adjustedExponent + len - 1))

/-- The part of `FromString` that scans the whole digits, the decimal
point and everything after them: `afterZeros` is the iterator position
after the leading zeros were skipped. -/
def FromStringMain (isNegative : Bool) (afterZeros : List Char) :
    Except ArrowErr (Decimal128 × Int × Int) :=
  let wholePart := afterZeros.takeWhile isdigit
  let afterWhole := afterZeros.dropWhile isdigit
  match afterWhole with
  | [] => FromStringTail isNegative wholePart []
  | c :: rest =>
    if c = '.' then
      if rest.isEmpty then
        .error (.invalid "Decimal point must be followed by at least one base ten digit. Reached the end of the string.")
      else if ¬ isdigit (rest.headD (Char.ofNat 0)) then
        .error (.invalid "Decimal point must be followed by a base ten digit.")
      else
        FromStringTail isNegative wholePart rest
    else
      .error (.invalid "Expected base ten digit or decimal point but found another character instead.")

/-- `Decimal128::FromString` with all three output parameters.  The
comment in the source gives the intended regular expression; the
embedding follows the hand-written scanner branch by branch.  When the
input ends right after the exponent marker the scanner dereferences the
end iterator; for `std::string` that reads the null terminator, modelled
by the default character of `headD`. -/
def FromString (s : List Char) : Except ArrowErr (Decimal128 × Int × Int) :=
  if s.isEmpty then
    .error (.invalid "Empty string cannot be converted to decimal")
  else
    let firstChar := s.headD (Char.ofNat 0)
    let isNegative := firstChar = '-'
    let afterSign := if firstChar = '+' ∨ firstChar = '-' then s.drop 1 else s
    if afterSign.isEmpty then
      .error (.invalid "Single character is not a valid decimal value")
    else
      let afterZeros := afterSign.dropWhile (fun c => c = '0')
      if afterZeros.isEmpty then
        .ok (ofInt64 0, wrapS32 afterSign.length, 0)
      else
        FromStringMain isNegative afterZeros

/-- Modelled from the spec: an 8-byte little-endian store of a 64-bit
pattern, as performed by the `reinterpret_cast` stores of `ToBytes`
together with `BitUtil::ToLittleEndian` (declared outside `src/`; the
spec fixes the byte form as little-endian). -/
def le64 (n : Nat) : List Nat :=
  [n % 2 ^ 8, n / 2 ^ 8 % 2 ^ 8, n / 2 ^ 16 % 2 ^ 8, n / 2 ^ 24 % 2 ^ 8,
   n / 2 ^ 32 % 2 ^ 8, n / 2 ^ 40 % 2 ^ 8, n / 2 ^ 48 % 2 ^ 8, n / 2 ^ 56 % 2 ^ 8]

/-- Modelled from the spec: an 8-byte little-endian load of a 64-bit
pattern, as performed by the byte constructor through
`BitUtil::FromLittleEndian`. -/
def readLE64 (bs : List Nat) : Nat :=
  bs.getD 0 0 + 2 ^ 8 * bs.getD 1 0 + 2 ^ 16 * bs.getD 2 0 + 2 ^ 24 * bs.getD 3 0 +
    2 ^ 32 * bs.getD 4 0 + 2 ^ 40 * bs.getD 5 0 + 2 ^ 48 * bs.getD 6 0 +
    2 ^ 56 * bs.getD 7 0

/-- `Decimal128::ToBytes`: 16 bytes, the low half little-endian in bytes
0 to 7 and the high half little-endian in bytes 8 to 15. -/
def ToBytes (d : Decimal128) : List Nat :=
  le64 (d.lowBits % 2 ^ 64) ++ le64 (toUnsigned64 d.highBits)

/-- The byte constructor `Decimal128(const uint8_t*)`: read the high half
as a signed 64-bit little-endian value from bytes 8 to 15 and the low
half as an unsigned 64-bit little-endian value from bytes 0 to 7. -/
def FromBytes (bs : List Nat) : Decimal128 :=
  ⟨toSigned64 (readLE64 (bs.drop 8) % 2 ^ 64), readLE64 (bs.take 8) % 2 ^ 64⟩

/-! ### Specification-side decompositions of the parser input

The following functions restate, directly in the words of the
specification, which characters of an input string form the sign, the
whole part after skipping leading zeros, the fractional part and the
exponent.  They are used to compare the outputs of `FromString` against
the formulas of the specification. -/

/-- Whether the input starts with a minus sign. -/
def minusSigned (s : List Char) : Bool :=
  s.headD (Char.ofNat 0) = '-'

/-- The input after an optional leading plus or minus sign. -/
def afterSignChars (s : List Char) : List Char :=
  if s.headD (Char.ofNat 0) = '+' ∨ s.headD (Char.ofNat 0) = '-' then s.drop 1 else s

/-- The input after the sign and after skipping leading zeros. -/
def significandChars (s : List Char) : List Char :=
  (afterSignChars s).dropWhile (fun c => c = '0')

/-- The whole-part digits: the digits after skipping leading zeros. -/
def wholeDigits (s : List Char) : List Char :=
  (significandChars s).takeWhile isdigit

/-- The rest of the input after the whole-part digits. -/
def afterWholeChars (s : List Char) : List Char :=
  (significandChars s).dropWhile isdigit

/-- The fractional digits: the digits after a decimal point. -/
def fracDigits (s : List Char) : List Char :=
  match afterWholeChars s with
  | c :: rest => if c = '.' then rest.takeWhile isdigit else []
  | [] => []

/-- The rest of the input after the fractional digits. -/
def afterFracChars (s : List Char) : List Char :=
  match afterWholeChars s with
  | c :: rest => if c = '.' then rest.dropWhile isdigit else afterWholeChars s
  | [] => []

/-- The characters following the exponent marker, when one is present. -/
def exponentChars (s : List Char) : Option (List Char) :=
  match afterFracChars s with
  | [] => none
  | _ :: rest => some rest

/-- The scientific form of the specification (`d[.ddd]E` then a sign and
exponent digits): an optional minus sign, exactly one integer digit, an
optional group of a decimal point followed by at least one fractional
digit, the exponent marker, an explicit sign and at least one exponent
digit. -/
def expOk (cs : List Char) : Bool :=
  match cs with
  | 'E' :: '+' :: ds => !ds.isEmpty && ds.all isdigit
  | 'E' :: '-' :: ds => !ds.isEmpty && ds.all isdigit
  | _ => false

/-- Tail of the scientific form after the leading integer digit: either
the exponent directly, or a decimal point followed by at least one digit
and then the exponent. -/
def sciTailOk (cs : List Char) : Bool :=
  expOk cs ||
  (match cs with
   | '.' :: rest =>
     !(rest.takeWhile isdigit).isEmpty && expOk (rest.dropWhile isdigit)
   | _ => false)

/-- Whether a string has the scientific form `d[.ddd]E(+|-)n` of the
specification (with an optional leading minus sign). -/
def isScientificForm (s : List Char) : Bool :=
  match s with
  | '-' :: d :: rest => isdigit d && sciTailOk rest
  | d :: rest => isdigit d && sciTailOk rest
  | [] => false

end Decimal128

/-! ### Basic facts about the wrapping helpers -/

theorem toUnsigned64_lt (i : Int) : toUnsigned64 i < 2 ^ 64 := by
  unfold toUnsigned64; omega

theorem toSigned64_range (n : Nat) (h : n < 2 ^ 64) :
    -2 ^ 63 ≤ toSigned64 n ∧ toSigned64 n < 2 ^ 63 := by
  unfold toSigned64; split <;> omega

theorem toUnsigned64_toSigned64 (n : Nat) (h : n < 2 ^ 64) :
    toUnsigned64 (toSigned64 n) = n := by
  unfold toUnsigned64 toSigned64; split <;> omega

theorem toSigned64_toUnsigned64 (i : Int) (h1 : -2 ^ 63 ≤ i) (h2 : i < 2 ^ 63) :
    toSigned64 (toUnsigned64 i) = i := by
  unfold toUnsigned64 toSigned64; split <;> omega

theorem wrapS64_range (i : Int) : -2 ^ 63 ≤ wrapS64 i ∧ wrapS64 i < 2 ^ 63 := by
  unfold wrapS64; exact toSigned64_range _ (toUnsigned64_lt i)

theorem toUnsigned64_wrapS64 (i : Int) : toUnsigned64 (wrapS64 i) = toUnsigned64 i := by
  unfold wrapS64
  rw [toUnsigned64_toSigned64 _ (toUnsigned64_lt i)]

theorem toUnsigned64_add_nat (i : Int) (n : Nat) :
    toUnsigned64 (i + n) = (toUnsigned64 i + n) % 2 ^ 64 := by
  unfold toUnsigned64; omega

theorem toUnsigned64_add_one (i : Int) :
    toUnsigned64 (i + 1) = (toUnsigned64 i + 1) % 2 ^ 64 := by
  unfold toUnsigned64; omega

theorem toUnsigned64_add_int (i j : Int) :
    toUnsigned64 (i + j) = (toUnsigned64 i + toUnsigned64 j) % 2 ^ 64 := by
  unfold toUnsigned64; omega

theorem toUnsigned64_ofNat (n : Nat) : toUnsigned64 (n : Int) = n % 2 ^ 64 := by
  unfold toUnsigned64; omega

theorem toUnsigned64_one : toUnsigned64 (1 : Int) = 1 := by
  unfold toUnsigned64; omega

namespace Decimal128

/-! ### Values, patterns and well-formedness -/

theorem natVal_lt (d : Decimal128) (h : Wf d) : natVal d < 2 ^ 128 := by
  obtain ⟨h1, h2, h3⟩ := h
  unfold natVal
  have := toUnsigned64_lt d.highBits
  omega

theorem Wf_ext (a b : Decimal128) (ha : Wf a) (hb : Wf b)
    (h : natVal a = natVal b) : a = b := by
  obtain ⟨ha1, ha2, ha3⟩ := ha
  obtain ⟨hb1, hb2, hb3⟩ := hb
  unfold natVal at h
  have hu1 := toUnsigned64_lt a.highBits
  have hu2 := toUnsigned64_lt b.highBits
  have hlow : a.lowBits = b.lowBits := by omega
  have hhiU : toUnsigned64 a.highBits = toUnsigned64 b.highBits := by omega
  have hhi : a.highBits = b.highBits := by
    rw [← toSigned64_toUnsigned64 a.highBits ha1 ha2,
        ← toSigned64_toUnsigned64 b.highBits hb1 hb2, hhiU]
  cases a; cases b; simp_all

theorem natVal_ofInt (v : Int) : natVal (ofInt v) = (v % 2 ^ 128).toNat := by
  have h : (v % 2 ^ 128).toNat < 2 ^ 128 := by omega
  simp only [natVal, ofInt]
  rw [toUnsigned64_toSigned64 _ (by omega)]
  omega

theorem Wf_ofInt (v : Int) : Wf (ofInt v) := by
  simp only [Wf, ofInt]
  have := toSigned64_range ((v % 2 ^ 128).toNat / 2 ^ 64) (by omega)
  exact ⟨by omega, by omega, by omega⟩

theorem Wf_ofInt64 (v : Int) : Wf (ofInt64 v) := by
  simp only [Wf, ofInt64]
  have := toUnsigned64_lt v
  split <;> exact ⟨by omega, by omega, by omega⟩

theorem natVal_ofInt64_nonneg (n : Nat) (h : n < 2 ^ 63) :
    natVal (ofInt64 (n : Int)) = n := by
  simp only [natVal, ofInt64]
  rw [if_neg (by omega)]
  have h0 : toUnsigned64 (0 : Int) = 0 := by unfold toUnsigned64; omega
  simp only [h0, toUnsigned64_ofNat]
  omega

theorem natVal_zero : natVal (⟨0, 0⟩ : Decimal128) = 0 := by
  simp only [natVal, toUnsigned64]; simp

theorem Wf_zero : Wf (⟨0, 0⟩ : Decimal128) := by
  unfold Wf; norm_num

/-! ### Correctness of the additive operators on patterns -/

theorem natVal_addDec (a b : Decimal128) (ha : Wf a) (hb : Wf b) :
    natVal (addDec a b) = (natVal a + natVal b) % 2 ^ 128 := by
  obtain ⟨ha1, ha2, ha3⟩ := ha
  obtain ⟨hb1, hb2, hb3⟩ := hb
  have hu1 := toUnsigned64_lt a.highBits
  have hu2 := toUnsigned64_lt b.highBits
  simp only [addDec, natVal]
  split
  · simp only [toUnsigned64_wrapS64, toUnsigned64_add_int, toUnsigned64_one]
    omega
  · simp only [toUnsigned64_wrapS64, toUnsigned64_add_int]
    omega

theorem Wf_addDec (a b : Decimal128) : Wf (addDec a b) := by
  have h1 := wrapS64_range (a.highBits + b.highBits)
  have h2 := wrapS64_range (wrapS64 (a.highBits + b.highBits) + 1)
  simp only [Wf, addDec]
  split <;> exact ⟨by dsimp only; omega, by dsimp only; omega, by dsimp only; omega⟩

theorem toUnsigned64_neg_one_sub (h : Int) :
    toUnsigned64 (-1 - h) = 2 ^ 64 - 1 - toUnsigned64 h := by
  unfold toUnsigned64; omega

theorem natVal_Negate (d : Decimal128) (h : Wf d) :
    natVal (Negate d) = (2 ^ 128 - natVal d) % 2 ^ 128 := by
  obtain ⟨h1, h2, h3⟩ := h
  have hu := toUnsigned64_lt d.highBits
  simp only [Negate, natVal]
  split
  · simp only [toUnsigned64_wrapS64, toUnsigned64_add_int, toUnsigned64_one,
      toUnsigned64_neg_one_sub]
    omega
  · simp only [toUnsigned64_wrapS64, toUnsigned64_neg_one_sub]
    omega

theorem toUnsigned64_zero : toUnsigned64 (0 : Int) = 0 := by
  unfold toUnsigned64; omega

/-- Pattern-level correctness of `operator*=` when the right operand has
a zero high half and its halves are small enough that the running sum of
the 32-bit place-one partial products cannot wrap 64 bits.  In that case
the doubled carry bit is never added and the result is the full product
reduced modulo `2 ^ 128`. -/
theorem natVal_mulDec_smallRight (a b : Decimal128) (ha : Wf a)
    (hbh : b.highBits = 0) (hblo : b.lowBits < 2 ^ 64)
    (hbound : (2 ^ 32 - 1) * (b.lowBits / 2 ^ 32 + b.lowBits % 2 ^ 32) +
      b.lowBits % 2 ^ 32 < 2 ^ 64) :
    natVal (mulDec a b) = natVal a * b.lowBits % 2 ^ 128 := by
  obtain ⟨ha1, ha2, ha3⟩ := ha
  have hu : toUnsigned64 a.highBits < 2 ^ 64 := toUnsigned64_lt a.highBits
  have hL2 : a.lowBits / 2 ^ 32 < 2 ^ 32 := by omega
  have hL3 : a.lowBits % 2 ^ 32 < 2 ^ 32 := by omega
  have hL0 : toUnsigned64 a.highBits / 2 ^ 32 < 2 ^ 32 := by omega
  have hL1 : toUnsigned64 a.highBits % 2 ^ 32 < 2 ^ 32 := by omega
  have hR2 : b.lowBits / 2 ^ 32 < 2 ^ 32 := by omega
  have hR3 : b.lowBits % 2 ^ 32 < 2 ^ 32 := by omega
  have hp1 : a.lowBits % 2 ^ 32 * (b.lowBits % 2 ^ 32) < 2 ^ 64 := by
    calc a.lowBits % 2 ^ 32 * (b.lowBits % 2 ^ 32) < 2 ^ 32 * 2 ^ 32 :=
          Nat.mul_lt_mul_of_lt_of_lt hL3 hR3
      _ = 2 ^ 64 := by norm_num
  have hp2 : a.lowBits / 2 ^ 32 * (b.lowBits % 2 ^ 32) < 2 ^ 64 := by
    calc a.lowBits / 2 ^ 32 * (b.lowBits % 2 ^ 32) < 2 ^ 32 * 2 ^ 32 :=
          Nat.mul_lt_mul_of_lt_of_lt hL2 hR3
      _ = 2 ^ 64 := by norm_num
  have hp3 : a.lowBits % 2 ^ 32 * (b.lowBits / 2 ^ 32) < 2 ^ 64 := by
    calc a.lowBits % 2 ^ 32 * (b.lowBits / 2 ^ 32) < 2 ^ 32 * 2 ^ 32 :=
          Nat.mul_lt_mul_of_lt_of_lt hL3 hR2
      _ = 2 ^ 64 := by norm_num
  have hsum : a.lowBits % 2 ^ 32 * (b.lowBits % 2 ^ 32) / 2 ^ 32 +
      a.lowBits / 2 ^ 32 * (b.lowBits % 2 ^ 32) +
      a.lowBits % 2 ^ 32 * (b.lowBits / 2 ^ 32) < 2 ^ 64 := by
    have h1 : a.lowBits % 2 ^ 32 * (b.lowBits % 2 ^ 32) / 2 ^ 32 ≤ b.lowBits % 2 ^ 32 := by
      have : a.lowBits % 2 ^ 32 * (b.lowBits % 2 ^ 32) ≤ 2 ^ 32 * (b.lowBits % 2 ^ 32) :=
        Nat.mul_le_mul_right _ (by omega)
      calc a.lowBits % 2 ^ 32 * (b.lowBits % 2 ^ 32) / 2 ^ 32
          ≤ 2 ^ 32 * (b.lowBits % 2 ^ 32) / 2 ^ 32 := Nat.div_le_div_right this
        _ = b.lowBits % 2 ^ 32 := Nat.mul_div_cancel_left _ (by norm_num)
    have h2 : a.lowBits / 2 ^ 32 * (b.lowBits % 2 ^ 32) ≤
        (2 ^ 32 - 1) * (b.lowBits % 2 ^ 32) := Nat.mul_le_mul_right _ (by omega)
    have h3 : a.lowBits % 2 ^ 32 * (b.lowBits / 2 ^ 32) ≤
        (2 ^ 32 - 1) * (b.lowBits / 2 ^ 32) := Nat.mul_le_mul_right _ (by omega)
    have h4 : (2 ^ 32 - 1) * (b.lowBits % 2 ^ 32) + (2 ^ 32 - 1) * (b.lowBits / 2 ^ 32) =
        (2 ^ 32 - 1) * (b.lowBits / 2 ^ 32 + b.lowBits % 2 ^ 32) := by ring
    omega
  simp only [mulDec, natVal, hbh, toUnsigned64_zero, Nat.zero_div, Nat.zero_mod,
    Nat.mul_zero, Nat.add_zero]
  simp only [Nat.mod_eq_of_lt hp1, Nat.mod_eq_of_lt hp2, Nat.mod_eq_of_lt hp3]
  rw [Nat.mod_eq_of_lt (show a.lowBits % 2 ^ 32 * (b.lowBits % 2 ^ 32) / 2 ^ 32 +
        a.lowBits / 2 ^ 32 * (b.lowBits % 2 ^ 32) < 2 ^ 64 by omega),
      Nat.mod_eq_of_lt hsum]
  rw [if_neg (show ¬(a.lowBits % 2 ^ 32 * (b.lowBits % 2 ^ 32) / 2 ^ 32 +
        a.lowBits / 2 ^ 32 * (b.lowBits % 2 ^ 32) +
        a.lowBits % 2 ^ 32 * (b.lowBits / 2 ^ 32) <
        a.lowBits % 2 ^ 32 * (b.lowBits / 2 ^ 32)) by omega)]
  simp only [zero_add, toUnsigned64_wrapS64, toUnsigned64_add_nat, toUnsigned64_ofNat]
  have hsplitHi := Nat.div_add_mod (toUnsigned64 a.highBits) (2 ^ 32)
  have hsplitLo := Nat.div_add_mod a.lowBits (2 ^ 32)
  have hsplitM := Nat.div_add_mod b.lowBits (2 ^ 32)
  have hexpand : (toUnsigned64 a.highBits * 2 ^ 64 + a.lowBits) * b.lowBits =
      a.lowBits % 2 ^ 32 * (b.lowBits % 2 ^ 32) +
      (a.lowBits / 2 ^ 32 * (b.lowBits % 2 ^ 32) +
        a.lowBits % 2 ^ 32 * (b.lowBits / 2 ^ 32)) * 2 ^ 32 +
      (toUnsigned64 a.highBits % 2 ^ 32 * (b.lowBits % 2 ^ 32) +
        a.lowBits / 2 ^ 32 * (b.lowBits / 2 ^ 32)) * 2 ^ 64 +
      (toUnsigned64 a.highBits / 2 ^ 32 * (b.lowBits % 2 ^ 32) +
        toUnsigned64 a.highBits % 2 ^ 32 * (b.lowBits / 2 ^ 32)) * 2 ^ 96 +
      toUnsigned64 a.highBits / 2 ^ 32 * (b.lowBits / 2 ^ 32) * 2 ^ 128 := by
    conv_lhs => rw [← hsplitHi, ← hsplitLo, ← hsplitM]
    ring
  rw [hexpand]
  generalize a.lowBits % 2 ^ 32 * (b.lowBits % 2 ^ 32) = A at *
  generalize a.lowBits / 2 ^ 32 * (b.lowBits % 2 ^ 32) = B at *
  generalize a.lowBits % 2 ^ 32 * (b.lowBits / 2 ^ 32) = C at *
  generalize toUnsigned64 a.highBits % 2 ^ 32 * (b.lowBits % 2 ^ 32) +
      a.lowBits / 2 ^ 32 * (b.lowBits / 2 ^ 32) = D at *
  generalize toUnsigned64 a.highBits / 2 ^ 32 * (b.lowBits % 2 ^ 32) +
      toUnsigned64 a.highBits % 2 ^ 32 * (b.lowBits / 2 ^ 32) = E at *
  generalize toUnsigned64 a.highBits / 2 ^ 32 * (b.lowBits / 2 ^ 32) = F at *
  rw [if_neg (show ¬(A / 2 ^ 32 + B + C < C) by omega), toUnsigned64_zero]
  omega

theorem Wf_mulDec (a b : Decimal128) : Wf (mulDec a b) := by
  simp only [Wf, mulDec]
  refine ⟨?_, ?_, ?_⟩ <;> dsimp only
  · exact (wrapS64_range _).1
  · exact (wrapS64_range _).2
  · omega

/-! ### Digit strings -/

theorem digitsToNat_foldl (cs : List Char) (acc : Nat) :
    cs.foldl (fun a c => a * 10 + (c.toNat - 48)) acc =
      acc * 10 ^ cs.length + digitsToNat cs := by
  induction cs generalizing acc with
  | nil => simp [digitsToNat]
  | cons c cs ih =>
    simp only [List.foldl_cons, List.length_cons, digitsToNat] at *
    rw [ih, ih (0 * 10 + (c.toNat - 48))]
    ring

theorem digitsToNat_cons (c : Char) (cs : List Char) :
    digitsToNat (c :: cs) = (c.toNat - 48) * 10 ^ cs.length + digitsToNat cs := by
  simp only [digitsToNat, List.foldl_cons]
  rw [digitsToNat_foldl]
  simp [digitsToNat]

theorem digitsToNat_append (xs ys : List Char) :
    digitsToNat (xs ++ ys) = digitsToNat xs * 10 ^ ys.length + digitsToNat ys := by
  simp only [digitsToNat, List.foldl_append]
  rw [digitsToNat_foldl]
  rfl

theorem digitsToNat_lt (cs : List Char) (h : ∀ c ∈ cs, isdigit c) :
    digitsToNat cs < 10 ^ cs.length := by
  induction cs with
  | nil => simp [digitsToNat]
  | cons c cs ih =>
    have hc : c.toNat - 48 < 10 := by
      have := h c (List.mem_cons_self c cs)
      simp only [isdigit, decide_eq_true_eq] at this
      omega
    have hrest := ih (fun x hx => h x (List.mem_cons_of_mem c hx))
    rw [digitsToNat_cons]
    calc (c.toNat - 48) * 10 ^ cs.length + digitsToNat cs
        < (c.toNat - 48) * 10 ^ cs.length + 10 ^ cs.length := by omega
      _ = (c.toNat - 48 + 1) * 10 ^ cs.length := by ring
      _ ≤ 10 * 10 ^ cs.length := Nat.mul_le_mul_right _ (by omega)
      _ = 10 ^ (c :: cs).length := by rw [List.length_cons]; ring

theorem kPowersOfTen_getD (g : Nat) (h : g ≤ 18) :
    kPowersOfTen.getD g 0 = (10 : Int) ^ g := by
  have : ∀ g : Nat, g < 19 → kPowersOfTen.getD g 0 = (10 : Int) ^ g := by decide
  exact this g (by omega)

theorem pow10_lt_bound (g : Nat) (h : g ≤ 18) :
    (2 ^ 32 - 1) * (10 ^ g / 2 ^ 32 + 10 ^ g % 2 ^ 32) + 10 ^ g % 2 ^ 32 < 2 ^ 64 := by
  have : ∀ g : Nat, g < 19 →
      (2 ^ 32 - 1) * (10 ^ g / 2 ^ 32 + 10 ^ g % 2 ^ 32) + 10 ^ g % 2 ^ 32 < 2 ^ 64 := by
    decide
  exact this g (by omega)

theorem pow10_le (g : Nat) (h : g ≤ 18) : (10 : Nat) ^ g ≤ 10 ^ 18 :=
  Nat.pow_le_pow_right (by norm_num) h

/-- The `Decimal128` built by `ofInt64` from a power of ten used in
`StringToInteger`. -/
theorem ofInt64_pow10 (g : Nat) (h : g ≤ 18) :
    ofInt64 ((10 : Int) ^ g) = ⟨0, 10 ^ g⟩ := by
  have hlt : (10 : Nat) ^ g < 2 ^ 64 := by
    have := pow10_le g h; omega
  have hcast : ((10 : Int) ^ g) = ((10 ^ g : Nat) : Int) := by push_cast; ring
  unfold ofInt64
  rw [if_neg (not_lt.mpr (show (0 : Int) ≤ 10 ^ g by positivity)), hcast,
    toUnsigned64_ofNat, Nat.mod_eq_of_lt hlt]

/-! ### Correctness of StringToInteger -/

theorem natVal_StringToIntegerLoop (fuel : Nat) :
    ∀ (cs : List Char) (out : Decimal128), cs.length ≤ fuel →
      (∀ c ∈ cs, isdigit c) → Wf out →
      Wf (StringToIntegerLoop fuel cs out) ∧
      natVal (StringToIntegerLoop fuel cs out) =
        (natVal out * 10 ^ cs.length + digitsToNat cs) % 2 ^ 128 := by
  induction fuel with
  | zero =>
    intro cs out hlen hdig hw
    have hnil : cs = [] := List.length_eq_zero.mp (Nat.le_zero.mp hlen)
    subst hnil
    simp only [StringToIntegerLoop, List.length_nil, pow_zero, mul_one]
    have h0 : digitsToNat [] = 0 := rfl
    rw [h0, Nat.add_zero, Nat.mod_eq_of_lt (natVal_lt out hw)]
    exact ⟨hw, rfl⟩
  | succ fuel ih =>
    intro cs out hlen hdig hw
    match cs with
    | [] =>
      simp only [StringToIntegerLoop, List.length_nil, pow_zero, mul_one]
      have h0 : digitsToNat [] = 0 := rfl
      rw [h0, Nat.add_zero, Nat.mod_eq_of_lt (natVal_lt out hw)]
      exact ⟨hw, rfl⟩
    | c :: rest =>
      have hg1 : 1 ≤ min kInt64DecimalDigits (c :: rest).length := by
        simp only [kInt64DecimalDigits, List.length_cons]
        omega
      have hg18 : min kInt64DecimalDigits (c :: rest).length ≤ 18 := by
        simp only [kInt64DecimalDigits]
        omega
      have hgl : min kInt64DecimalDigits (c :: rest).length ≤ (c :: rest).length := by
        omega
      set g := min kInt64DecimalDigits (c :: rest).length with hgdef
      set str := c :: rest with hstrdef
      have hlt64 : (10 : Nat) ^ g < 2 ^ 64 := by
        have := pow10_le g hg18; omega
      have htakeLen : (str.take g).length = g := by
        rw [List.length_take]; omega
      have hdropLen : (str.drop g).length = str.length - g := List.length_drop g str
      have hchunk : digitsToNat (str.take g) < 2 ^ 63 := by
        have h1 : digitsToNat (str.take g) < 10 ^ (str.take g).length :=
          digitsToNat_lt _ (fun x hx => hdig x (List.take_subset g str hx))
        rw [htakeLen] at h1
        have := pow10_le g hg18
        omega
      have hstep : StringToIntegerLoop (fuel + 1) str out =
          StringToIntegerLoop fuel (str.drop g)
            (addDec (mulDec out (ofInt64 (kPowersOfTen.getD g 0)))
              (ofInt64 (stoll (str.take g)))) := by
        rw [hstrdef]
        simp only [StringToIntegerLoop]
      rw [hstep, kPowersOfTen_getD g hg18, ofInt64_pow10 g hg18]
      have hmul : natVal (mulDec out ⟨0, 10 ^ g⟩) = natVal out * 10 ^ g % 2 ^ 128 :=
        natVal_mulDec_smallRight out ⟨0, 10 ^ g⟩ hw rfl hlt64 (pow10_lt_bound g hg18)
      have hstoll : stoll (str.take g) = ((digitsToNat (str.take g) : Nat) : Int) := rfl
      have hout2 : natVal (addDec (mulDec out ⟨0, 10 ^ g⟩) (ofInt64 (stoll (str.take g)))) =
          (natVal out * 10 ^ g % 2 ^ 128 + digitsToNat (str.take g)) % 2 ^ 128 := by
        rw [natVal_addDec _ _ (Wf_mulDec _ _) (Wf_ofInt64 _), hmul, hstoll,
          natVal_ofInt64_nonneg _ hchunk]
      obtain ⟨hwf3, hval3⟩ := ih (str.drop g)
        (addDec (mulDec out ⟨0, 10 ^ g⟩) (ofInt64 (stoll (str.take g))))
        (by rw [hdropLen]; simp only [hstrdef, List.length_cons] at hlen ⊢; omega)
        (fun x hx => hdig x (List.drop_subset g str hx))
        (Wf_addDec _ _)
      refine ⟨hwf3, ?_⟩
      rw [hval3, hdropLen]
      have e1 : natVal (addDec (mulDec out ⟨0, 10 ^ g⟩) (ofInt64 (stoll (str.take g)))) %
          2 ^ 128 = (natVal out * 10 ^ g + digitsToNat (str.take g)) % 2 ^ 128 := by
        rw [hout2]
        omega
      have e2 := Nat.ModEq.add_right (digitsToNat (str.drop g))
        (Nat.ModEq.mul_right (10 ^ (str.length - g)) (e1 : Nat.ModEq (2 ^ 128) _ _))
      rw [(e2 : _ % 2 ^ 128 = _ % 2 ^ 128)]
      have hpow : (10 : Nat) ^ g * 10 ^ (str.length - g) = 10 ^ str.length := by
        rw [← pow_add]
        congr 1
        omega
      have hdigsplit : digitsToNat str =
          digitsToNat (str.take g) * 10 ^ (str.length - g) + digitsToNat (str.drop g) := by
        conv_lhs => rw [← List.take_append_drop g str]
        rw [digitsToNat_append, hdropLen]
      rw [hdigsplit]
      congr 1
      rw [add_mul, mul_assoc, hpow]
      ring

theorem StringToInteger_eq_ofInt (str : List Char) (h : ∀ c ∈ str, isdigit c) :
    StringToInteger str ⟨0, 0⟩ = ofInt ((digitsToNat str : Nat) : Int) := by
  obtain ⟨hwf, hval⟩ :=
    natVal_StringToIntegerLoop str.length str ⟨0, 0⟩ le_rfl h Wf_zero
  apply Wf_ext _ _ hwf (Wf_ofInt _)
  show natVal (StringToIntegerLoop str.length str ⟨0, 0⟩) = _
  rw [hval, natVal_zero, natVal_ofInt]
  omega

theorem Wf_Negate (d : Decimal128) : Wf (Negate d) := by
  have h1 := wrapS64_range (-1 - d.highBits)
  have h2 := wrapS64_range (wrapS64 (-1 - d.highBits) + 1)
  simp only [Wf, Negate]
  split <;> exact ⟨by dsimp only; omega, by dsimp only; omega, by dsimp only; omega⟩

theorem Negate_ofInt (v : Int) : Negate (ofInt v) = ofInt (-v) := by
  apply Wf_ext _ _ (Wf_Negate _) (Wf_ofInt _)
  rw [natVal_Negate _ (Wf_ofInt v), natVal_ofInt, natVal_ofInt]
  omega

/-! ### Analysis of the parser on accepted inputs -/

/-- The value output of the parser tail: the digit string converted by
`StringToInteger` and negated on demand equals the decimal value of the
digits, reduced modulo `2 ^ 128`. -/
theorem parsedValue_eq (isNeg : Bool) (digits : List Char)
    (h : ∀ c ∈ digits, isdigit c) :
    (if isNeg then Negate (StringToInteger digits ⟨0, 0⟩)
     else StringToInteger digits ⟨0, 0⟩) =
      ofInt ((if isNeg then -1 else 1) * (digitsToNat digits : Int)) := by
  rw [StringToInteger_eq_ofInt digits h]
  cases isNeg with
  | true => rw [if_pos rfl, if_pos rfl, Negate_ofInt]; congr 1; ring
  | false => rw [if_neg (by simp), if_neg (by simp)]; congr 1; ring

/-- What `FromStringTail` reports when it succeeds: the precision is the
32-bit count of whole and fractional digits; the scale is the fractional
digit count without an exponent and the wrapped formula with one; the
value is the converted digit string. -/
theorem FromStringTail_ok (isNeg : Bool) (wholePart fracStart : List Char)
    (d : Decimal128) (p sc : Int)
    (h : FromStringTail isNeg wholePart fracStart = .ok (d, p, sc))
    (hw : ∀ c ∈ wholePart, isdigit c) :
    p = wrapS32 (wholePart.length + (fracStart.takeWhile isdigit).length) ∧
    (fracStart.dropWhile isdigit = [] →
      sc = wrapS32 ((fracStart.takeWhile isdigit).length : Nat)) ∧
    (fracStart.dropWhile isdigit ≠ [] →
      ∃ v, stol ((fracStart.dropWhile isdigit).drop 1) = .ok v ∧
        sc = wrapS32 (-(wrapS32 v) +
          wrapS32 (wholePart.length + (fracStart.takeWhile isdigit).length) - 1)) ∧
    d = ofInt ((if isNeg then -1 else 1) *
      (digitsToNat (wholePart ++ fracStart.takeWhile isdigit) : Int)) := by
  have hdig : ∀ c ∈ wholePart ++ fracStart.takeWhile isdigit, isdigit c := by
    intro c hc
    rcases List.mem_append.mp hc with hc | hc
    · exact hw c hc
    · exact List.mem_takeWhile_imp hc
  simp only [FromStringTail] at h
  split at h
  · exact absurd h (by simp)
  · split at h
    · rename_i hempty
      simp only [Except.ok.injEq, Prod.mk.injEq] at h
      obtain ⟨h1, h2, h3⟩ := h
      refine ⟨h2.symm, fun _ => h3.symm, fun hne => absurd hempty hne, ?_⟩
      rw [← h1, parsedValue_eq isNeg _ hdig]
    · rename_i hne
      split at h <;>
        (split at h
         · exact absurd h (by simp)
         · split at h
           · exact absurd h (by simp)
           · rename_i v hstol
             simp only [Except.ok.injEq, Prod.mk.injEq] at h
             obtain ⟨h1, h2, h3⟩ := h
             exact ⟨h2.symm, fun hc => absurd hc hne, fun _ => ⟨v, hstol, h3.symm⟩,
               by rw [← h1, parsedValue_eq isNeg _ hdig]⟩)

/-- Transfers the conclusions of `FromStringTail_ok` through the
whole-part and decimal-point scanning of `FromStringMain`, phrased with
the accessor functions of the original string. -/
theorem FromStringMain_reports (s : List Char) (isNeg : Bool) (Z : List Char)
    (d : Decimal128) (p sc : Int)
    (hmin : minusSigned s = isNeg) (hZ : significandChars s = Z)
    (hok : FromStringMain isNeg Z = .ok (d, p, sc)) :
    p = wrapS32 ((wholeDigits s).length + (fracDigits s).length) ∧
    (exponentChars s = none → sc = wrapS32 ((fracDigits s).length : Nat)) ∧
    (∀ e, exponentChars s = some e → ∃ v, stol e = .ok v ∧
      sc = wrapS32 (-(wrapS32 v) +
        wrapS32 ((wholeDigits s).length + (fracDigits s).length) - 1)) ∧
    d = ofInt ((if minusSigned s then -1 else 1) *
      (digitsToNat (wholeDigits s ++ fracDigits s) : Int)) := by
  subst hZ
  subst hmin
  have hW : wholeDigits s = (significandChars s).takeWhile isdigit := rfl
  simp only [FromStringMain] at hok
  split at hok
  · rename_i heq
    obtain ⟨h1, h2, h3, h4⟩ :=
      FromStringTail_ok _ _ _ _ _ _ hok (fun c hc => List.mem_takeWhile_imp hc)
    have hAWnil : afterWholeChars s = [] := heq
    have hF : fracDigits s = [] := by rw [fracDigits, hAWnil]
    have hAF : afterFracChars s = [] := by rw [afterFracChars, hAWnil]
    have hE : exponentChars s = none := by rw [exponentChars, hAF]
    refine ⟨?_, fun _ => ?_, fun e he => absurd he (by rw [hE]; simp), ?_⟩
    · rw [hW, hF]; simpa using h1
    · rw [hF]; simpa using h2 rfl
    · rw [hW, hF]; simpa using h4
  · rename_i c rest heq
    split at hok
    · rename_i hdot
      split at hok
      · exact absurd hok (by simp)
      · split at hok
        · exact absurd hok (by simp)
        · obtain ⟨h1, h2, h3, h4⟩ :=
            FromStringTail_ok _ _ _ _ _ _ hok (fun c hc => List.mem_takeWhile_imp hc)
          have hAWc : afterWholeChars s = c :: rest := heq
          have hF : fracDigits s = rest.takeWhile isdigit := by
            simp only [fracDigits, hAWc, if_pos hdot]
          have hAF : afterFracChars s = rest.dropWhile isdigit := by
            simp only [afterFracChars, hAWc, if_pos hdot]
          refine ⟨by rw [hW, hF]; exact h1, ?_, ?_, by rw [hW, hF]; exact h4⟩
          · intro hE
            rw [exponentChars, hAF] at hE
            split at hE
            · rename_i heq2
              rw [hF]
              exact h2 heq2
            · exact absurd hE (by simp)
          · intro e he
            rw [exponentChars, hAF] at he
            split at he
            · exact absurd he (by simp)
            · rename_i c2 r2 heq2
              obtain rfl : r2 = e := by simpa using he
              obtain ⟨v, hv, hsc⟩ := h3 (by rw [heq2]; simp)
              refine ⟨v, ?_, by rw [hW, hF]; exact hsc⟩
              rw [heq2] at hv
              simpa using hv
    · exact absurd hok (by simp)

/-- Relates the outputs of the parser, when it succeeds on a string with
at least one nonzero digit, to the specification formulas: the reported
precision is the 32-bit count of whole and fractional digits, the scale
is the fractional digit count (or the wrapped exponent formula), and the
value is the digit string converted and negated on a minus sign. -/
theorem FromString_ok_reports (s : List Char) (d : Decimal128) (p sc : Int)
    (hok : FromString s = .ok (d, p, sc))
    (hnz : ∃ c ∈ s, isdigit c ∧ c ≠ '0') :
    p = wrapS32 ((wholeDigits s).length + (fracDigits s).length) ∧
    (exponentChars s = none → sc = wrapS32 ((fracDigits s).length : Nat)) ∧
    (∀ e, exponentChars s = some e → ∃ v, stol e = .ok v ∧
      sc = wrapS32 (-(wrapS32 v) +
        wrapS32 ((wholeDigits s).length + (fracDigits s).length) - 1)) ∧
    d = ofInt ((if minusSigned s then -1 else 1) *
      (digitsToNat (wholeDigits s ++ fracDigits s) : Int)) := by
  obtain ⟨c0, hc0s, hc0d, hc0ne⟩ := hnz
  cases s with
  | nil => simp at hc0s
  | cons a as =>
    simp only [FromString, List.headD_cons, List.drop_succ_cons, List.drop_zero] at hok
    rw [if_neg (by simp)] at hok
    by_cases hsig : (a = '+' ∨ a = '-')
    · rw [if_pos hsig] at hok
      split at hok
      · exact absurd hok (by simp)
      · split at hok
        · rename_i hz
          rw [List.isEmpty_iff, List.dropWhile_eq_nil_iff] at hz
          rcases List.mem_cons.mp hc0s with hc0a | hc0as
          · subst hc0a
            rcases hsig with hs | hs <;> (rw [hs] at hc0d; exact absurd hc0d (by decide))
          · have := hz c0 hc0as
            simp at this
            exact absurd this hc0ne
        · exact FromStringMain_reports (a :: as) _ _ d p sc rfl
            (by simp only [significandChars, afterSignChars, List.headD_cons,
              List.drop_succ_cons, List.drop_zero, if_pos hsig]) hok
    · rw [if_neg hsig] at hok
      split at hok
      · exact absurd hok (by simp)
      · split at hok
        · rename_i hz
          rw [List.isEmpty_iff, List.dropWhile_eq_nil_iff] at hz
          have := hz c0 hc0s
          simp at this
          exact absurd this hc0ne
        · exact FromStringMain_reports (a :: as) _ _ d p sc rfl
            (by simp only [significandChars, afterSignChars, List.headD_cons,
              if_neg hsig]) hok

/-! ### Byte conversion support -/

theorem readLE64_le64 (n : Nat) : readLE64 (le64 n) = n % 2 ^ 64 := by
  have h : readLE64 (le64 n) =
      n % 2 ^ 8 + 2 ^ 8 * (n / 2 ^ 8 % 2 ^ 8) + 2 ^ 16 * (n / 2 ^ 16 % 2 ^ 8) +
      2 ^ 24 * (n / 2 ^ 24 % 2 ^ 8) + 2 ^ 32 * (n / 2 ^ 32 % 2 ^ 8) +
      2 ^ 40 * (n / 2 ^ 40 % 2 ^ 8) + 2 ^ 48 * (n / 2 ^ 48 % 2 ^ 8) +
      2 ^ 56 * (n / 2 ^ 56 % 2 ^ 8) := rfl
  rw [h]
  omega

theorem ToBytes_append (d : Decimal128) :
    ToBytes d = le64 (d.lowBits % 2 ^ 64) ++ le64 (toUnsigned64 d.highBits) := rfl

/-! ### The claims -/

/-- C1: refuted by evaluation.  On this pair of in-range operands the
division returns success and the Euclidean identity holds, but the
magnitude of the remainder is not below the magnitude of the divisor (the
quotient is one short of the truncated quotient). -/
theorem divide_remainder_not_below_divisor :
    divide (ofInt (2 ^ 95 + 2 ^ 63)) (ofInt (2 ^ 63 + 2 ^ 32 - 1)) =
      .ok (ofInt 4294967293, ofInt 18446744090889420797) ∧
    4294967293 * (2 ^ 63 + 2 ^ 32 - 1) + 18446744090889420797 =
      2 ^ 95 + 2 ^ 63 ∧
    ¬((18446744090889420797 : Int).natAbs <
      ((2 : Int) ^ 63 + 2 ^ 32 - 1).natAbs) :=
  ⟨by decide, by decide, by decide⟩

/-- C2: refuted by evaluation.  Multiplying `2 ^ 64 - 1` by itself does
not return the low 128 bits of the 256-bit product: the carry between the
middle partial products is added twice. -/
theorem mulDec_not_low_product_bits :
    natVal (mulDec (ofInt (2 ^ 64 - 1)) (ofInt (2 ^ 64 - 1))) ≠
      (2 ^ 64 - 1) * (2 ^ 64 - 1) % 2 ^ 128 := by decide

/-- C3: refuted by evaluation.  Rescaling this value up by nineteen
places succeeds although the returned value is not `x * 10 ^ 19`, even
though `x * 10 ^ 19` fits the signed 128-bit range: the multiplication of
the claim C2 drops into the product. -/
theorem Rescale_up_wrong_product :
    Rescale (ofInt 16437463797367029516) 0 19 =
      .ok (ofInt 164374638052898457674264337593543950336) ∧
    (164374638052898457674264337593543950336 : Int) ≠
      16437463797367029516 * 10 ^ 19 ∧
    (16437463797367029516 * 10 ^ 19 : Int) < 2 ^ 127 :=
  ⟨by decide, by decide, by decide⟩

/-- C4: refuted by evaluation.  When the input ends right after the
exponent marker the scanner hands the empty string to `std::stol`, which
throws `std::invalid_argument` instead of producing the Invalid status
the claim promises. -/
theorem FromString_empty_exponent_throws :
    FromString "1.5E".toList = .error (.thrown "invalid_argument") ∧
    ∀ m, ArrowErr.thrown "invalid_argument" ≠ ArrowErr.invalid m :=
  ⟨by decide, fun m h => ArrowErr.noConfusion h⟩

/-- C5: refuted by evaluation.  This value is an exact multiple of
`10 ^ 14` and in range, yet rescaling down by fourteen places reports
data loss: the remainder produced by the division is wrong. -/
theorem Rescale_down_divisible_data_loss :
    Rescale (ofInt (18446744073709551584 * 10 ^ 14)) 0 (-14) =
      .error (.invalid "Rescaling decimal value would cause data loss") ∧
    18446744073709551584 * 10 ^ 14 % 10 ^ 14 = 0 ∧
    (18446744073709551584 * 10 ^ 14 : Int) < 2 ^ 127 :=
  ⟨by decide, by decide, by decide⟩

/-- C6: refuted by evaluation.  Dividing by this nonzero divisor does not
return success: the divisor array keeps a leading zero limb, the leading
zero count of that limb is thirty-two, and the normalization shift
violates the shift contract (undefined behaviour in the C++). -/
theorem divide_nonzero_divisor_ub :
    divide (ofInt (2 ^ 64)) (ofInt (-(2 ^ 32 - 1))) =
      .error (.ub "ShiftArrayLeft called with bits not below 32") ∧
    (-(2 ^ 32 - 1) : Int) ≠ 0 :=
  ⟨by decide, by decide⟩

/-- C7: refuted by evaluation.  For value five at scale eight the
adjusted exponent is below minus six, so the claim demands the scientific
form with one integer digit, optional fraction digits and a signed
exponent; the code prints a decimal point with an empty fraction, which
is not of that form. -/
theorem ToString_empty_fraction_not_scientific :
    ToString (ofInt 5) 8 = "5.E-8" ∧
    isScientificForm "5.E-8".toList = false ∧
    -(8 : Int) + (((ToIntegerString (ofInt 5)).length : Int) - 1 - 0) < -6 :=
  ⟨by decide, by decide, by decide⟩

/-- C8 counterexample: the literal claim fails because the exponent is
truncated to thirty-two bits before entering the scale formula.  For this
input the claim formula gives `-4294967296 + 2 - 1`, but the parser
reports scale one. -/
theorem FromString_exponent_scale_counterexample :
    FromString "1.0E4294967296".toList = .ok (ofInt 10, 2, 1) ∧
    (1 : Int) ≠ -4294967296 + 2 - 1 :=
  ⟨by decide, by decide⟩

/-- C8 witness: the amended theorem evaluated on the accepted input
`12345.6789`, whose reported precision is nine, scale four and value the
concatenated digit string. -/
theorem FromString_ok_reports_witness :
    (9 : Int) = wrapS32 ((wholeDigits "12345.6789".toList).length +
      (fracDigits "12345.6789".toList).length) ∧
    (exponentChars "12345.6789".toList = none →
      (4 : Int) = wrapS32 ((fracDigits "12345.6789".toList).length : Nat)) ∧
    (∀ e, exponentChars "12345.6789".toList = some e →
      ∃ v, stol e = .ok v ∧ (4 : Int) = wrapS32 (-(wrapS32 v) +
        wrapS32 ((wholeDigits "12345.6789".toList).length +
          (fracDigits "12345.6789".toList).length) - 1)) ∧
    ofInt 123456789 = ofInt ((if minusSigned "12345.6789".toList then -1 else 1) *
      (digitsToNat (wholeDigits "12345.6789".toList ++
        fracDigits "12345.6789".toList) : Int)) :=
  FromString_ok_reports "12345.6789".toList (ofInt 123456789) 9 4 (by decide)
    ⟨'1', by decide, by decide, by decide⟩

/-- C9: confirmed.  The byte form is sixteen bytes, the first eight the
little-endian low half and the last eight the little-endian high half,
and reading the bytes back reconstructs the value exactly. -/
theorem ToBytes_layout_roundtrip (d : Decimal128) (h : Wf d) :
    (ToBytes d).length = 16 ∧
    (ToBytes d).take 8 = le64 d.lowBits ∧
    (ToBytes d).drop 8 = le64 (toUnsigned64 d.highBits) ∧
    FromBytes (ToBytes d) = d := by
  obtain ⟨h1, h2, h3⟩ := h
  have hlow : d.lowBits % 2 ^ 64 = d.lowBits := Nat.mod_eq_of_lt h3
  have htake : (ToBytes d).take 8 = le64 (d.lowBits % 2 ^ 64) := by
    rw [ToBytes_append]
    exact List.take_left' rfl
  have hdrop : (ToBytes d).drop 8 = le64 (toUnsigned64 d.highBits) := by
    rw [ToBytes_append]
    exact List.drop_left' rfl
  have hu := toUnsigned64_lt d.highBits
  refine ⟨by rw [ToBytes_append]; rfl, by rw [htake, hlow], hdrop, ?_⟩
  rw [FromBytes, htake, hdrop, readLE64_le64, readLE64_le64]
  have e1 : toUnsigned64 d.highBits % 2 ^ 64 % 2 ^ 64 = toUnsigned64 d.highBits := by
    omega
  have e2 : d.lowBits % 2 ^ 64 % 2 ^ 64 % 2 ^ 64 = d.lowBits := by
    omega
  rw [e1, e2, toSigned64_toUnsigned64 d.highBits h1 h2]

/-- C9 witness: the layout and round-trip statement evaluated on a large
negative value. -/
theorem ToBytes_layout_roundtrip_witness :
    (ToBytes (ofInt (-12345678901234567890123456789))).length = 16 ∧
    (ToBytes (ofInt (-12345678901234567890123456789))).take 8 =
      le64 (ofInt (-12345678901234567890123456789)).lowBits ∧
    (ToBytes (ofInt (-12345678901234567890123456789))).drop 8 =
      le64 (toUnsigned64 (ofInt (-12345678901234567890123456789)).highBits) ∧
    FromBytes (ToBytes (ofInt (-12345678901234567890123456789))) =
      ofInt (-12345678901234567890123456789) :=
  ToBytes_layout_roundtrip (ofInt (-12345678901234567890123456789)) (by decide)

/-- C10: confirmed.  With a zero divisor the division reports the
division-by-zero error before either output parameter is assigned: both
outputs still hold the values they were called with. -/
theorem Divide_zero_divisor_leaves_outputs (x r0 m0 : Decimal128) :
    Divide x ⟨0, 0⟩ r0 m0 =
      (.error (.invalid "Division by 0 in Decimal128"), r0, m0) := by
  have hfd : FillInArray ⟨0, 0⟩ = ([], false) := rfl
  simp only [Divide, hfd, List.length_nil]
  simp

end Decimal128

end ArrowDecimal
